import Mathlib

/-!
Shallow embedding of `slhck/video-offset-finder` (Python) in Lean 4, together
with theorems settling the frozen claims about its specification.

Embedding conventions:
* Python floats are modelled as exact rationals (`ℚ`); the quantities compared
  here (Hamming counts, sums of absolute differences, averages) are exact.
* `float("inf")` used as the initial minimum in the correlators is modelled as
  `Option ℚ` with `none` standing for infinity.
* `None` parameters are modelled as `Option`; Python truthiness of
  `x or y` / `x and y` on floats (where `0.0` is falsy) is modelled explicitly.
* The PyAV frame stream is modelled as the list of decoded frames' PTS values
  (`Option ℤ`, `none` for frames without PTS) together with the stream time
  base; `container.seek` is modelled by an arbitrary landing index into the
  decode order, since the only facts used about it are order-preserving.
-/

namespace VideoOffsetFinder

/-! ## Correlator (hashing.py, `_cross_correlate_hashes` / `_cross_correlate_sad`)

Both Python functions share the identical loop structure (lines 191-222 and
241-272 of hashing.py); they differ only in the per-frame distance.  We embed
the shared loop generically over a distance function `d` and instantiate it
twice, exactly as the two source functions do. -/

/-- Hamming distance between two equal-length bit rows, as in
`np.sum(ref_slice != dist_slice, axis=1)` (hashing.py line 215): the count of
positions where the entries differ. Rows are the int arrays produced by
`hash_to_array`. -/
def hammingDist (a b : List ℤ) : ℚ :=
  ((a.zip b).countP fun p => decide (p.1 ≠ p.2) : ℕ)

/-- Sum of absolute differences between two pixel rows, as in
`np.sum(np.abs(ref_slice - dist_slice), axis=1)` (hashing.py line 265). -/
def sadDist (a b : List ℚ) : ℚ :=
  ((a.zip b).map fun p => |p.1 - p.2|).sum

/-- Length of the overlap region for a candidate `offset` (hashing.py lines
197-205): `ref_end - ref_start` where `ref_start = max(offset, 0)` and
`ref_end = min(n_ref, offset + n_dist)`. -/
def overlapLen (nRef nDist : ℕ) (offset : ℤ) : ℕ :=
  (min (nRef : ℤ) (offset + nDist) - max offset 0).toNat

/-- The average distance scored at one candidate `offset`, or `none` when the
overlap is empty and the lag is skipped (`if ref_end <= ref_start: continue`,
hashing.py line 207).  The overlapping slices are
`ref[ref_start:ref_end]` and `dist[dist_start:dist_start + L]` with
`dist_start = max(-offset, 0)`; the score is the mean of the per-pair
distances (hashing.py lines 211-216). -/
def lagScore {α : Type} (d : α → α → ℚ) (ref dist : List α) (offset : ℤ) : Option ℚ :=
  let L := overlapLen ref.length dist.length offset
  if L = 0 then none
  else
    let refSlice := (ref.drop (max offset 0).toNat).take L
    let distSlice := (dist.drop (max (-offset) 0).toNat).take L
    some ((((refSlice.zip distSlice).map fun p => d p.1 p.2).sum) / L)

/-- One iteration of the correlation loop (hashing.py lines 195-220): skip the
lag when its overlap is empty, otherwise update `(best_offset,
min_avg_distance)` when the new average is strictly smaller.  The running
minimum is `none` while still `float("inf")`. -/
def corrStep {α : Type} (d : α → α → ℚ) (ref dist : List α)
    (st : ℤ × Option ℚ) (offset : ℤ) : ℤ × Option ℚ :=
  match lagScore d ref dist offset with
  | none => st
  | some avg =>
    match st.2 with
    | none => (offset, some avg)
    | some m => if avg < m then (offset, some avg) else st

/-- The candidate lags, in Python iteration order:
`range(-n_dist + 1, n_ref)` (hashing.py line 195). -/
def lagList (nRef nDist : ℕ) : List ℤ :=
  (List.range (nRef + nDist - 1)).map fun i : ℕ => -(nDist : ℤ) + 1 + (i : ℤ)

/-- The shared correlation loop: fold the update over the candidate lags in
ascending order, starting from `best_offset = 0`, `min_avg_distance = inf`
(hashing.py lines 191-222 / 241-272). -/
def crossCorrelate {α : Type} (d : α → α → ℚ) (ref dist : List α) : ℤ × Option ℚ :=
  (lagList ref.length dist.length).foldl (corrStep d ref dist) (0, none)

/-- `_cross_correlate_hashes` (hashing.py lines 168-222): the generic loop with
Hamming distance on the bit rows. -/
def crossCorrelateHashes (refHashes distHashes : List (List ℤ)) : ℤ × Option ℚ :=
  crossCorrelate hammingDist refHashes distHashes

/-- `_cross_correlate_sad` (hashing.py lines 225-272): the generic loop with
sum-of-absolute-differences distance on the pixel rows. -/
def crossCorrelateSad (refSigs distSigs : List (List ℚ)) : ℤ × Option ℚ :=
  crossCorrelate sadDist refSigs distSigs

/-! ### Generic analysis of the strict-less-than minimum fold -/

/-- The correlation loop body, abstracted over the per-lag score function. -/
def minStep (f : ℤ → Option ℚ) (st : ℤ × Option ℚ) (x : ℤ) : ℤ × Option ℚ :=
  match f x with
  | none => st
  | some a =>
    match st.2 with
    | none => (x, some a)
    | some m => if a < m then (x, some a) else st

lemma corrStep_eq_minStep {α : Type} (d : α → α → ℚ) (ref dist : List α) :
    corrStep d ref dist = minStep (lagScore d ref dist) := by
  funext st x
  rcases st with ⟨b, s⟩
  simp only [corrStep, minStep]

lemma foldl_minStep_of_all_none (f : ℤ → Option ℚ) (L : List ℤ) (st : ℤ × Option ℚ)
    (h : ∀ x ∈ L, f x = none) : L.foldl (minStep f) st = st := by
  induction L generalizing st with
  | nil => rfl
  | cons a L ih =>
    have ha : f a = none := h a (List.mem_cons_self a L)
    simp only [List.foldl_cons]
    rw [show minStep f st a = st by simp [minStep, ha]]
    exact ih st fun x hx => h x (List.mem_cons_of_mem a hx)

lemma foldl_minStep_value_le (f : ℤ → Option ℚ) (L : List ℤ) (st : ℤ × Option ℚ)
    (m : ℚ) (h : st.2 = some m) :
    ∃ w, (L.foldl (minStep f) st).2 = some w ∧ w ≤ m := by
  induction L generalizing st m with
  | nil => exact ⟨m, h, le_refl m⟩
  | cons a L ih =>
    rcases st with ⟨b, s⟩
    simp only at h
    subst h
    simp only [List.foldl_cons]
    cases hfa : f a with
    | none =>
      rw [show minStep f (b, some m) a = (b, some m) by simp [minStep, hfa]]
      exact ih (b, some m) m rfl
    | some v =>
      by_cases hvm : v < m
      · rw [show minStep f (b, some m) a = (a, some v) by simp [minStep, hfa, hvm]]
        obtain ⟨w, hw, hwle⟩ := ih (a, some v) v rfl
        exact ⟨w, hw, le_trans hwle (le_of_lt hvm)⟩
      · rw [show minStep f (b, some m) a = (b, some m) by simp [minStep, hfa, hvm]]
        exact ih (b, some m) m rfl

lemma foldl_minStep_eq_or_lt (f : ℤ → Option ℚ) (L : List ℤ) (st : ℤ × Option ℚ)
    (m : ℚ) (h : st.2 = some m) :
    L.foldl (minStep f) st = st ∨
      ∃ w, (L.foldl (minStep f) st).2 = some w ∧ w < m := by
  induction L generalizing st m with
  | nil => exact Or.inl rfl
  | cons a L ih =>
    rcases st with ⟨b, s⟩
    simp only at h
    subst h
    simp only [List.foldl_cons]
    cases hfa : f a with
    | none =>
      rw [show minStep f (b, some m) a = (b, some m) by simp [minStep, hfa]]
      exact ih (b, some m) m rfl
    | some v =>
      by_cases hvm : v < m
      · rw [show minStep f (b, some m) a = (a, some v) by simp [minStep, hfa, hvm]]
        obtain ⟨w, hw, hwle⟩ := foldl_minStep_value_le f L (a, some v) v rfl
        exact Or.inr ⟨w, hw, lt_of_le_of_lt hwle hvm⟩
      · rw [show minStep f (b, some m) a = (b, some m) by simp [minStep, hfa, hvm]]
        exact ih (b, some m) m rfl

lemma foldl_minStep_attained (f : ℤ → Option ℚ) (L : List ℤ) (st : ℤ × Option ℚ) :
    L.foldl (minStep f) st = st ∨
      ((L.foldl (minStep f) st).1 ∈ L ∧
        f (L.foldl (minStep f) st).1 = (L.foldl (minStep f) st).2 ∧
        (L.foldl (minStep f) st).2.isSome) := by
  induction L generalizing st with
  | nil => exact Or.inl rfl
  | cons a L ih =>
    simp only [List.foldl_cons]
    rcases ih (minStep f st a) with h | ⟨h1, h2, h3⟩
    · rw [h]
      rcases st with ⟨b, s⟩
      cases hfa : f a with
      | none =>
        left
        simp [minStep, hfa]
      | some v =>
        cases s with
        | none =>
          right
          refine ⟨?_, ?_, ?_⟩ <;> simp [minStep, hfa]
        | some m =>
          by_cases hvm : v < m
          · right
            refine ⟨?_, ?_, ?_⟩ <;> simp [minStep, hfa, hvm]
          · left
            simp [minStep, hfa, hvm]
    · exact Or.inr ⟨List.mem_cons_of_mem a h1, h2, h3⟩

lemma foldl_minStep_minimal (f : ℤ → Option ℚ) (L : List ℤ) (st : ℤ × Option ℚ)
    (v : ℚ) (hv : (L.foldl (minStep f) st).2 = some v) :
    ∀ x ∈ L, ∀ w, f x = some w → v ≤ w := by
  induction L generalizing st with
  | nil => intro x hx; exact absurd hx (List.not_mem_nil x)
  | cons a L ih =>
    simp only [List.foldl_cons] at hv
    intro x hx w hw
    rcases List.mem_cons.mp hx with hxa | hxL
    · subst hxa
      rcases st with ⟨b, s⟩
      cases s with
      | none =>
        have hst : (minStep f (b, none) x).2 = some w := by simp [minStep, hw]
        obtain ⟨u, hu, hule⟩ :=
          foldl_minStep_value_le f L (minStep f (b, none) x) w hst
        rw [hv] at hu
        exact le_trans (le_of_eq (Option.some_injective ℚ hu)) hule
      | some m =>
        by_cases hwm : w < m
        · have hst : (minStep f (b, some m) x).2 = some w := by
            simp [minStep, hw, hwm]
          obtain ⟨u, hu, hule⟩ :=
            foldl_minStep_value_le f L (minStep f (b, some m) x) w hst
          rw [hv] at hu
          exact le_trans (le_of_eq (Option.some_injective ℚ hu)) hule
        · have hst : minStep f (b, some m) x = (b, some m) := by
            simp [minStep, hw, hwm]
          rw [hst] at hv
          obtain ⟨u, hu, hule⟩ := foldl_minStep_value_le f L (b, some m) m rfl
          rw [hv] at hu
          have : v ≤ m := le_trans (le_of_eq (Option.some_injective ℚ hu)) hule
          exact le_trans this (le_of_not_lt hwm)
    · exact ih (minStep f st a) hv x hxL w hw

lemma foldl_minStep_none_iff (f : ℤ → Option ℚ) (L : List ℤ) (st : ℤ × Option ℚ) :
    (L.foldl (minStep f) st).2 = none ↔ st.2 = none ∧ ∀ x ∈ L, f x = none := by
  induction L generalizing st with
  | nil => simp
  | cons a L ih =>
    simp only [List.foldl_cons]
    rcases st with ⟨b, s⟩
    cases hfa : f a with
    | none =>
      rw [show minStep f (b, s) a = (b, s) by simp [minStep, hfa]]
      rw [ih (b, s)]
      constructor
      · rintro ⟨h1, h2⟩
        refine ⟨h1, fun x hx => ?_⟩
        rcases List.mem_cons.mp hx with hxa | hxL
        · subst hxa; exact hfa
        · exact h2 x hxL
      · rintro ⟨h1, h2⟩
        exact ⟨h1, fun x hx => h2 x (List.mem_cons_of_mem a hx)⟩
    | some v =>
      have hst : (minStep f (b, s) a).2 = some v ∨
          ∃ m, (minStep f (b, s) a).2 = some m := by
        cases s with
        | none => left; simp [minStep, hfa]
        | some m =>
          by_cases hvm : v < m
          · left; simp [minStep, hfa, hvm]
          · right; exact ⟨m, by simp [minStep, hfa, hvm]⟩
      have hsome : ∃ m, (minStep f (b, s) a).2 = some m := by
        rcases hst with h | h
        · exact ⟨v, h⟩
        · exact h
      obtain ⟨m, hm⟩ := hsome
      obtain ⟨w, hw, _⟩ := foldl_minStep_value_le f L (minStep f (b, s) a) m hm
      constructor
      · intro h
        rw [h] at hw
        exact absurd hw (by simp)
      · rintro ⟨_, h2⟩
        have := h2 a (List.mem_cons_self a L)
        rw [this] at hfa
        exact absurd hfa (by simp)

lemma foldl_minStep_first_of_ties (f : ℤ → Option ℚ) (L : List ℤ)
    (st : ℤ × Option ℚ) (hsorted : L.Pairwise (· < ·))
    (hst : ∀ m, st.2 = some m → ∀ x ∈ L, st.1 < x) :
    ∀ v, (L.foldl (minStep f) st).2 = some v →
      ∀ x ∈ L, f x = some v → (L.foldl (minStep f) st).1 ≤ x := by
  induction L generalizing st with
  | nil => intro v _ x hx; exact absurd hx (List.not_mem_nil x)
  | cons a L ih =>
    obtain ⟨ha, hL⟩ := List.pairwise_cons.mp hsorted
    simp only [List.foldl_cons]
    intro v hv x hx hfx
    have hst' : ∀ m, (minStep f st a).2 = some m → ∀ y ∈ L, (minStep f st a).1 < y := by
      intro m hm y hy
      rcases st with ⟨b, s⟩
      cases hfa : f a with
      | none =>
        have : minStep f (b, s) a = (b, s) := by simp [minStep, hfa]
        rw [this] at hm ⊢
        exact hst m hm y (List.mem_cons_of_mem a hy)
      | some w =>
        cases s with
        | none =>
          have : minStep f (b, none) a = (a, some w) := by simp [minStep, hfa]
          rw [this]
          exact ha y hy
        | some m0 =>
          by_cases hwm : w < m0
          · have : minStep f (b, some m0) a = (a, some w) := by
              simp [minStep, hfa, hwm]
            rw [this]
            exact ha y hy
          · have : minStep f (b, some m0) a = (b, some m0) := by
              simp [minStep, hfa, hwm]
            rw [this] at hm ⊢
            exact hst m hm y (List.mem_cons_of_mem a hy)
    rcases List.mem_cons.mp hx with hxa | hxL
    · subst hxa
      rcases st with ⟨b, s⟩
      cases s with
      | none =>
        have hstep : minStep f (b, none) x = (x, some v) := by simp [minStep, hfx]
        rw [hstep] at hv ⊢
        rcases foldl_minStep_eq_or_lt f L (x, some v) v rfl with h | ⟨w, hw, hwlt⟩
        · rw [h]
        · rw [hv] at hw
          exact absurd ((Option.some_injective ℚ hw) ▸ hwlt) (lt_irrefl v)
      | some m =>
        by_cases hvm : v < m
        · have hstep : minStep f (b, some m) x = (x, some v) := by
            simp [minStep, hfx, hvm]
          rw [hstep] at hv ⊢
          rcases foldl_minStep_eq_or_lt f L (x, some v) v rfl with h | ⟨w, hw, hwlt⟩
          · rw [h]
          · rw [hv] at hw
            exact absurd ((Option.some_injective ℚ hw) ▸ hwlt) (lt_irrefl v)
        · have hstep : minStep f (b, some m) x = (b, some m) := by
            simp [minStep, hfx, hvm]
          rw [hstep] at hv ⊢
          rcases foldl_minStep_eq_or_lt f L (b, some m) m rfl with h | ⟨w, hw, hwlt⟩
          · rw [h]
            exact le_of_lt (hst m rfl x (List.mem_cons_self x L))
          · rw [hv] at hw
            have hvm' : m ≤ v := le_of_not_lt hvm
            have : v < m := (Option.some_injective ℚ hw) ▸ hwlt
            exact absurd this (not_lt_of_le hvm')
    · exact ih (minStep f st a) hL hst' v hv x hxL hfx

/-! ### Structure of the candidate-lag enumeration -/

lemma lagList_length (nRef nDist : ℕ) :
    (lagList nRef nDist).length = nRef + nDist - 1 := by
  simp [lagList]

lemma mem_lagList_iff (nRef nDist : ℕ) (l : ℤ) :
    l ∈ lagList nRef nDist ↔ -(nDist : ℤ) + 1 ≤ l ∧ l < nRef := by
  simp only [lagList, List.mem_map, List.mem_range]
  constructor
  · rintro ⟨i, hi, rfl⟩
    omega
  · rintro ⟨h1, h2⟩
    exact ⟨(l + nDist - 1).toNat, by omega, by omega⟩

lemma lagList_pairwise (nRef nDist : ℕ) :
    (lagList nRef nDist).Pairwise (· < ·) := by
  refine List.Pairwise.map _ ?_ (List.pairwise_lt_range _)
  intro a b hab
  omega

lemma overlapLen_pos (nRef nDist : ℕ) (l : ℤ) (hn : 1 ≤ nRef) (hm : 1 ≤ nDist)
    (hl : l ∈ lagList nRef nDist) : 0 < overlapLen nRef nDist l := by
  rw [mem_lagList_iff] at hl
  unfold overlapLen
  omega

lemma lagScore_isSome {α : Type} (d : α → α → ℚ) (ref dist : List α) (l : ℤ)
    (h : 0 < overlapLen ref.length dist.length l) :
    (lagScore d ref dist l).isSome := by
  simp only [lagScore]
  rw [if_neg (by omega)]
  rfl

lemma crossCorrelate_eq_foldl {α : Type} (d : α → α → ℚ) (ref dist : List α) :
    crossCorrelate d ref dist =
      (lagList ref.length dist.length).foldl (minStep (lagScore d ref dist)) (0, none) := by
  unfold crossCorrelate
  rw [corrStep_eq_minStep]

lemma overlapLen_zero_of_empty {α : Type} (ref dist : List α)
    (h : ref = [] ∨ dist = []) (l : ℤ) (hl : l ∈ lagList ref.length dist.length) :
    overlapLen ref.length dist.length l = 0 := by
  rw [mem_lagList_iff] at hl
  rcases h with h | h <;> subst h <;> simp only [List.length_nil] at hl ⊢ <;>
    unfold overlapLen <;> omega

/-- C4: for non-empty signature series with `n = |ref|` and `m = |dist|`, the
correlator enumerates exactly the lags of the inclusive range `[-(m-1), n-1]`
(`n + m - 1` of them), and every enumerated lag has a non-empty overlap region
and is scored (none is skipped). -/
theorem correlator_enumerates_all_lags {α : Type} (d : α → α → ℚ)
    (ref dist : List α) (hr : ref ≠ []) (hd : dist ≠ []) :
    (lagList ref.length dist.length).length = ref.length + dist.length - 1 ∧
    (∀ l : ℤ, l ∈ lagList ref.length dist.length ↔
      -((dist.length : ℤ) - 1) ≤ l ∧ l ≤ (ref.length : ℤ) - 1) ∧
    (∀ l ∈ lagList ref.length dist.length,
      0 < overlapLen ref.length dist.length l ∧ (lagScore d ref dist l).isSome) := by
  have hn : 1 ≤ ref.length := List.length_pos.mpr hr
  have hm : 1 ≤ dist.length := List.length_pos.mpr hd
  refine ⟨lagList_length _ _, ?_, ?_⟩
  · intro l
    rw [mem_lagList_iff]
    omega
  · intro l hl
    have hpos := overlapLen_pos ref.length dist.length l hn hm hl
    exact ⟨hpos, lagScore_isSome d ref dist l hpos⟩

theorem correlator_enumerates_all_lags_witness :
    ([[(0 : ℤ)], [(1 : ℤ)]] : List (List ℤ)) ≠ [] ∧
    ([[(1 : ℤ)]] : List (List ℤ)) ≠ [] ∧
    ((lagList 2 1).length = 2 + 1 - 1 ∧
      (∀ l : ℤ, l ∈ lagList 2 1 ↔ -((1 : ℤ) - 1) ≤ l ∧ l ≤ (2 : ℤ) - 1) ∧
      (∀ l ∈ lagList 2 1,
        0 < overlapLen 2 1 l ∧
          (lagScore hammingDist [[(0 : ℤ)], [(1 : ℤ)]] [[(1 : ℤ)]] l).isSome)) :=
  ⟨by decide, by decide,
    correlator_enumerates_all_lags hammingDist [[(0 : ℤ)], [(1 : ℤ)]] [[(1 : ℤ)]]
      (by decide) (by decide)⟩

/-- C8: when either signature series is empty, the correlator returns the
degenerate result: lag `0` together with the untouched infinite minimum
(modelled as `none`), every enumerated lag having an empty overlap and hence
being skipped without being scored. -/
theorem correlator_empty_series {α : Type} (d : α → α → ℚ) (ref dist : List α)
    (h : ref = [] ∨ dist = []) :
    crossCorrelate d ref dist = (0, none) ∧
    ∀ l ∈ lagList ref.length dist.length, lagScore d ref dist l = none := by
  have hnone : ∀ l ∈ lagList ref.length dist.length, lagScore d ref dist l = none := by
    intro l hl
    have hz := overlapLen_zero_of_empty ref dist h l hl
    simp only [lagScore, hz]
    rfl
  refine ⟨?_, hnone⟩
  rw [crossCorrelate_eq_foldl]
  exact foldl_minStep_of_all_none _ _ _ hnone

theorem correlator_empty_series_witness :
    (([] : List (List ℤ)) = [] ∨ ([[(0 : ℤ)]] : List (List ℤ)) = []) ∧
    (crossCorrelateHashes [] [[(0 : ℤ)]] = (0, none) ∧
      ∀ l ∈ lagList 0 1, lagScore hammingDist ([] : List (List ℤ)) [[(0 : ℤ)]] l = none) :=
  ⟨Or.inl rfl,
    correlator_empty_series hammingDist ([] : List (List ℤ)) [[(0 : ℤ)]] (Or.inl rfl)⟩

/-- C3: for non-empty series the correlator scans the candidate lags in
strictly ascending order from `-(m-1)` to `n-1` and updates only on a strictly
smaller average distance, so the returned lag attains the minimum average
distance and, among all lags attaining it, is the first (most negative) one. -/
theorem correlator_returns_first_minimum {α : Type} (d : α → α → ℚ)
    (ref dist : List α) (hr : ref ≠ []) (hd : dist ≠ []) :
    (lagList ref.length dist.length).Pairwise (· < ·) ∧
    ∃ v : ℚ, (crossCorrelate d ref dist).2 = some v ∧
      (crossCorrelate d ref dist).1 ∈ lagList ref.length dist.length ∧
      lagScore d ref dist (crossCorrelate d ref dist).1 = some v ∧
      (∀ l ∈ lagList ref.length dist.length, ∀ w, lagScore d ref dist l = some w → v ≤ w) ∧
      (∀ l ∈ lagList ref.length dist.length, lagScore d ref dist l = some v →
        (crossCorrelate d ref dist).1 ≤ l) := by
  have hn : 1 ≤ ref.length := List.length_pos.mpr hr
  have hm : 1 ≤ dist.length := List.length_pos.mpr hd
  have h0mem : (0 : ℤ) ∈ lagList ref.length dist.length := by
    rw [mem_lagList_iff]; omega
  have h0some : (lagScore d ref dist 0).isSome :=
    lagScore_isSome d ref dist 0 (overlapLen_pos _ _ 0 hn hm h0mem)
  rw [crossCorrelate_eq_foldl]
  set f := lagScore d ref dist with hf
  set L := lagList ref.length dist.length with hL
  set r := L.foldl (minStep f) (0, none) with hr'
  refine ⟨lagList_pairwise _ _, ?_⟩
  have hsome : r.2 ≠ none := by
    intro hnone
    obtain ⟨-, hall⟩ := (foldl_minStep_none_iff f L (0, none)).mp hnone
    rw [hall 0 h0mem] at h0some
    exact absurd h0some (by simp)
  obtain ⟨v, hv⟩ := Option.ne_none_iff_exists'.mp hsome
  refine ⟨v, hv, ?_, ?_, ?_, ?_⟩
  · rcases foldl_minStep_attained f L (0, none) with h | ⟨h1, _, _⟩
    · rw [hr', h] at hv; exact absurd hv (by simp)
    · exact h1
  · rcases foldl_minStep_attained f L (0, none) with h | ⟨_, h2, _⟩
    · rw [hr', h] at hv; exact absurd hv (by simp)
    · rw [show r.2 = (List.foldl (minStep f) (0, none) L).2 from rfl] at hv
      rw [h2, hv]
  · exact foldl_minStep_minimal f L (0, none) v hv
  · intro l hl hscore
    exact foldl_minStep_first_of_ties f L (0, none) (lagList_pairwise _ _)
      (fun m hm' => absurd hm' (by simp)) v hv l hl hscore

theorem correlator_returns_first_minimum_witness :
    ([[(0 : ℤ)], [(1 : ℤ)], [(0 : ℤ)]] : List (List ℤ)) ≠ [] ∧
    ([[(1 : ℤ)], [(0 : ℤ)]] : List (List ℤ)) ≠ [] ∧
    ((lagList 3 2).Pairwise (· < ·) ∧
      ∃ v : ℚ,
        (crossCorrelateHashes [[(0 : ℤ)], [(1 : ℤ)], [(0 : ℤ)]] [[(1 : ℤ)], [(0 : ℤ)]]).2 = some v ∧
        (crossCorrelateHashes [[(0 : ℤ)], [(1 : ℤ)], [(0 : ℤ)]] [[(1 : ℤ)], [(0 : ℤ)]]).1 ∈
          lagList 3 2 ∧
        lagScore hammingDist [[(0 : ℤ)], [(1 : ℤ)], [(0 : ℤ)]] [[(1 : ℤ)], [(0 : ℤ)]]
          (crossCorrelateHashes [[(0 : ℤ)], [(1 : ℤ)], [(0 : ℤ)]] [[(1 : ℤ)], [(0 : ℤ)]]).1 =
            some v ∧
        (∀ l ∈ lagList 3 2, ∀ w,
          lagScore hammingDist [[(0 : ℤ)], [(1 : ℤ)], [(0 : ℤ)]] [[(1 : ℤ)], [(0 : ℤ)]] l =
            some w → v ≤ w) ∧
        (∀ l ∈ lagList 3 2,
          lagScore hammingDist [[(0 : ℤ)], [(1 : ℤ)], [(0 : ℤ)]] [[(1 : ℤ)], [(0 : ℤ)]] l =
            some v →
          (crossCorrelateHashes [[(0 : ℤ)], [(1 : ℤ)], [(0 : ℤ)]] [[(1 : ℤ)], [(0 : ℤ)]]).1 ≤ l)) :=
  ⟨by decide, by decide,
    correlator_returns_first_minimum hammingDist
      [[(0 : ℤ)], [(1 : ℤ)], [(0 : ℤ)]] [[(1 : ℤ)], [(0 : ℤ)]] (by decide) (by decide)⟩

/-! ### Self-correlation -/

lemma mem_zip_self {α : Type} (l : List α) (p : α × α) (hp : p ∈ l.zip l) :
    p.1 = p.2 := by
  induction l with
  | nil => exact absurd hp (List.not_mem_nil p)
  | cons a l ih =>
    rw [List.zip_cons_cons, List.mem_cons] at hp
    rcases hp with h | h
    · subst h; rfl
    · exact ih h

lemma hammingDist_self (a : List ℤ) : hammingDist a a = 0 := by
  unfold hammingDist
  norm_cast
  rw [List.countP_eq_zero]
  intro p hp
  have : p.1 = p.2 := mem_zip_self a p hp
  simp [this]

lemma hammingDist_nonneg (a b : List ℤ) : 0 ≤ hammingDist a b := by
  unfold hammingDist
  positivity

lemma hammingDist_pos (a b : List ℤ) (hlen : a.length = b.length) (hne : a ≠ b) :
    0 < hammingDist a b := by
  unfold hammingDist
  norm_cast
  rw [pos_iff_ne_zero]
  intro hzero
  rw [List.countP_eq_zero] at hzero
  apply hne
  apply List.ext_getElem hlen
  intro i h1 h2
  have hmem : (a[i], b[i]) ∈ a.zip b := by
    rw [List.mem_iff_getElem]
    exact ⟨i, by simp [List.length_zip]; omega, by simp [List.getElem_zip]⟩
  have := hzero _ hmem
  simpa using this

lemma sadDist_self (a : List ℚ) : sadDist a a = 0 := by
  unfold sadDist
  apply List.sum_eq_zero
  intro x hx
  obtain ⟨p, hp, rfl⟩ := List.mem_map.mp hx
  have : p.1 = p.2 := mem_zip_self a p hp
  simp [this]

lemma sadDist_nonneg (a b : List ℚ) : 0 ≤ sadDist a b := by
  unfold sadDist
  apply List.sum_nonneg
  intro x hx
  obtain ⟨p, _, rfl⟩ := List.mem_map.mp hx
  positivity

lemma overlapLen_self_zero (n : ℕ) : overlapLen n n 0 = n := by
  unfold overlapLen
  omega

lemma lagScore_self_zero {α : Type} (d : α → α → ℚ) (S : List α) (hne : S ≠ [])
    (hrefl : ∀ a, d a a = 0) : lagScore d S S 0 = some 0 := by
  have hn : S.length ≠ 0 := fun h => hne (List.length_eq_zero.mp h)
  simp only [lagScore, overlapLen_self_zero]
  rw [if_neg hn]
  have h1 : (S.drop (max (0 : ℤ) 0).toNat).take S.length = S := by
    simp
  have h2 : (S.drop (max (-(0 : ℤ)) 0).toNat).take S.length = S := by
    simp
  rw [h1, h2]
  have hzero : ((S.zip S).map fun p => d p.1 p.2).sum = 0 := by
    apply List.sum_eq_zero
    intro x hx
    obtain ⟨p, hp, rfl⟩ := List.mem_map.mp hx
    rw [mem_zip_self S p hp, hrefl]
  rw [hzero, zero_div]

lemma lagScore_nonneg {α : Type} (d : α → α → ℚ) (ref dist : List α) (l : ℤ)
    (hd : ∀ a b, 0 ≤ d a b) (w : ℚ) (hw : lagScore d ref dist l = some w) :
    0 ≤ w := by
  simp only [lagScore] at hw
  by_cases hL : overlapLen ref.length dist.length l = 0
  · rw [if_pos hL] at hw
    exact absurd hw (by simp)
  · rw [if_neg hL] at hw
    have hw' := Option.some.inj hw
    subst hw'
    apply div_nonneg
    · apply List.sum_nonneg
      intro x hx
      obtain ⟨p, _, rfl⟩ := List.mem_map.mp hx
      exact hd p.1 p.2
    · exact Nat.cast_nonneg _

lemma lagScore_self_neg_pos {α : Type} (d : α → α → ℚ) (S : List α) (l : ℤ)
    (hmem : l ∈ lagList S.length S.length) (hneg : l < 0)
    (hpos : ∀ (i j : ℕ) (hi : i < S.length) (hj : j < S.length), i ≠ j → 0 < d S[i] S[j])
    (w : ℚ) (hw : lagScore d S S l = some w) : 0 < w := by
  rw [mem_lagList_iff] at hmem
  obtain ⟨hlo, hhi⟩ := hmem
  have hL : overlapLen S.length S.length l = (l + (S.length : ℤ)).toNat := by
    unfold overlapLen; omega
  have hLpos : 0 < (l + (S.length : ℤ)).toNat := by omega
  have hrs : (max l 0).toNat = 0 := by omega
  have hk : (max (-l) 0).toNat = (-l).toNat := by omega
  simp only [lagScore, hL, hrs, hk] at hw
  rw [if_neg (by omega)] at hw
  have hw' := Option.some.inj hw
  subst hw'
  apply div_pos
  · apply List.sum_pos
    · intro x hx
      obtain ⟨p, hp, rfl⟩ := List.mem_map.mp hx
      obtain ⟨i, hilt, hpi⟩ := List.mem_iff_getElem.mp hp
      have hiL : i < (l + (S.length : ℤ)).toNat := by
        simp only [List.length_zip, List.length_take, List.length_drop] at hilt
        omega
      rw [← hpi]
      simp only [List.getElem_zip, List.getElem_take, List.getElem_drop,
        Nat.zero_add]
      exact hpos i ((-l).toNat + i) (by omega) (by omega) (by omega)
    · have hlen : ((((S.drop (0 : ℕ)).take (l + (S.length : ℤ)).toNat).zip
          ((S.drop (-l).toNat).take (l + (S.length : ℤ)).toNat)).map
            fun p => d p.1 p.2).length ≠ 0 := by
        simp only [List.length_map, List.length_zip, List.length_take,
          List.length_drop]
        omega
      intro hnil
      rw [hnil] at hlen
      exact hlen rfl
  · exact_mod_cast hLpos

/-- C7 counterexample: self-correlating the non-empty two-element constant
hash series `[[0], [0]]` returns lag `-1` (both frames being identical, the
ascending scan already finds average distance `0` at lag `-1` and the
strict-less-than update never moves to lag `0`), refuting the claim that every
non-empty series self-correlates to lag `0`. -/
theorem selfCorrelation_lag_zero_counterexample :
    crossCorrelateHashes [[(0 : ℤ)], [(0 : ℤ)]] [[(0 : ℤ)], [(0 : ℤ)]] = (-1, some 0) ∧
    (crossCorrelateHashes [[(0 : ℤ)], [(0 : ℤ)]] [[(0 : ℤ)], [(0 : ℤ)]]).1 ≠ 0 := by
  have h : crossCorrelateHashes [[(0 : ℤ)], [(0 : ℤ)]] [[(0 : ℤ)], [(0 : ℤ)]]
      = (-1, some 0) := by
    simp [crossCorrelateHashes, crossCorrelate, lagList, List.range_succ,
      corrStep, lagScore, overlapLen, hammingDist]
  refine ⟨h, ?_⟩
  rw [h]
  decide

/-- C7 (amended): self-correlating a non-empty series returns average distance
`0` and a lag `≤ 0`; the returned lag is exactly `0` whenever distinct
positions of the series carry signatures at positive distance (in particular
for a series of pairwise distinct signatures).  With repeated signatures the
first (more negative) exactly-matching lag is kept instead, as the
counterexample shows. -/
theorem selfCorrelation_returns_zero_distance {α : Type} (d : α → α → ℚ)
    (S : List α) (hne : S ≠ []) (hrefl : ∀ a, d a a = 0)
    (hnonneg : ∀ a b, 0 ≤ d a b) :
    (crossCorrelate d S S).2 = some 0 ∧
    (crossCorrelate d S S).1 ≤ 0 ∧
    ((∀ (i j : ℕ) (hi : i < S.length) (hj : j < S.length), i ≠ j → 0 < d S[i] S[j]) →
      (crossCorrelate d S S).1 = 0) := by
  have hn : 1 ≤ S.length := List.length_pos.mpr hne
  have h0mem : (0 : ℤ) ∈ lagList S.length S.length := by
    rw [mem_lagList_iff]; omega
  have h0score : lagScore d S S 0 = some 0 := lagScore_self_zero d S hne hrefl
  rw [crossCorrelate_eq_foldl]
  set f := lagScore d S S with hf
  set L := lagList S.length S.length with hL
  set r := L.foldl (minStep f) (0, none) with hr'
  have hsome : r.2 ≠ none := by
    intro hnone
    obtain ⟨-, hall⟩ := (foldl_minStep_none_iff f L (0, none)).mp hnone
    rw [hall 0 h0mem] at h0score
    exact absurd h0score (by simp)
  obtain ⟨v, hv⟩ := Option.ne_none_iff_exists'.mp hsome
  have hattained : r.1 ∈ L ∧ f r.1 = r.2 := by
    rcases foldl_minStep_attained f L (0, none) with h | ⟨h1, h2, _⟩
    · rw [hr', h] at hv
      exact absurd hv (by simp)
    · exact ⟨h1, h2⟩
  have hvzero : v = 0 := by
    have hle : v ≤ 0 := foldl_minStep_minimal f L (0, none) v hv 0 h0mem 0 h0score
    have hge : 0 ≤ v := by
      apply lagScore_nonneg d S S r.1 hnonneg
      rw [hf] at hattained
      rw [hattained.2, hv]
    exact le_antisymm hle hge
  subst hvzero
  have hlag_le : r.1 ≤ 0 :=
    foldl_minStep_first_of_ties f L (0, none) (lagList_pairwise _ _)
      (fun m hm => absurd hm (by simp)) 0 hv 0 h0mem h0score
  refine ⟨hv, hlag_le, ?_⟩
  intro hdistinct
  by_contra hne0
  have hneg : r.1 < 0 := lt_of_le_of_ne hlag_le hne0
  have hscore : lagScore d S S r.1 = some 0 := by
    rw [hf] at hattained
    rw [hattained.2, hv]
  have := lagScore_self_neg_pos d S r.1 (hL ▸ hattained.1) hneg hdistinct 0 hscore
  exact absurd this (lt_irrefl 0)

theorem selfCorrelation_returns_zero_distance_witness :
    ([[(0 : ℤ)], [(1 : ℤ)]] : List (List ℤ)) ≠ [] ∧
    ((crossCorrelateHashes [[(0 : ℤ)], [(1 : ℤ)]] [[(0 : ℤ)], [(1 : ℤ)]]).2 = some 0 ∧
      (crossCorrelateHashes [[(0 : ℤ)], [(1 : ℤ)]] [[(0 : ℤ)], [(1 : ℤ)]]).1 ≤ 0 ∧
      ((∀ (i j : ℕ) (hi : i < ([[(0 : ℤ)], [(1 : ℤ)]] : List (List ℤ)).length)
          (hj : j < ([[(0 : ℤ)], [(1 : ℤ)]] : List (List ℤ)).length), i ≠ j →
          0 < hammingDist ([[(0 : ℤ)], [(1 : ℤ)]] : List (List ℤ))[i]
            ([[(0 : ℤ)], [(1 : ℤ)]] : List (List ℤ))[j]) →
        (crossCorrelateHashes [[(0 : ℤ)], [(1 : ℤ)]] [[(0 : ℤ)], [(1 : ℤ)]]).1 = 0)) :=
  ⟨by decide,
    selfCorrelation_returns_zero_distance hammingDist [[(0 : ℤ)], [(1 : ℤ)]]
      (by decide) hammingDist_self hammingDist_nonneg⟩

/-! ## Python call binding (finder.py calling hashing.py / models.py)

Python binds a call's keyword arguments against the callee's parameter list;
a keyword that names no parameter raises `TypeError: ... got an unexpected
keyword argument ...` before the callee body runs.  We model the parameter
lists and keyword lists as they appear in the source and the binding check. -/

/-- Python keyword binding: with `nPos` leading positional arguments, the call
binds iff there are enough parameters for the positional arguments and every
keyword names one of the remaining parameters. -/
def callBindsOk (params : List String) (nPos : ℕ) (kwargs : List String) : Bool :=
  decide (nPos ≤ params.length) && kwargs.all fun k => (params.drop nPos).contains k

/-- Parameter list of `compute_video_signatures` (hashing.py lines 62-71). -/
def computeVideoSignaturesParams : List String :=
  ["path", "fps", "compare_type", "hash_size", "start_time", "max_duration",
    "max_frames", "desc"]

/-- The first signature-computation call of the coarse phase of `find_offset`
(finder.py lines 87-96): four positional arguments
`(ref_path, coarse_fps, compare_type, hash_size)` followed by these keyword
arguments. -/
def coarseRefCallKwargs : List String :=
  ["start_time", "max_duration", "desc", "quiet"]

/-- The second signature-computation call of the coarse phase
(finder.py lines 100-108). -/
def coarseDistCallKwargs : List String :=
  ["max_duration", "desc", "quiet"]

/-- The coarse phase of `find_offset` (finder.py lines 87-113), modelled at the
level of call binding and evaluation order: first the reference-signature call
is bound (and raises `TypeError` if binding fails), then the distorted-signature
call, and only then is the cross-correlation of the two signature series
computed.  The two signature series a successful call would produce are
abstracted as inputs. -/
def findOffsetCoarse (refSigs distSigs : List (List ℤ)) :
    Except String (ℤ × Option ℚ) :=
  if !callBindsOk computeVideoSignaturesParams 4 coarseRefCallKwargs then
    Except.error "TypeError: compute_video_signatures() got an unexpected keyword argument quiet"
  else if !callBindsOk computeVideoSignaturesParams 4 coarseDistCallKwargs then
    Except.error "TypeError: compute_video_signatures() got an unexpected keyword argument quiet"
  else
    Except.ok (crossCorrelateHashes refSigs distSigs)

/-- Field list of the `OffsetResult` dataclass (models.py lines 34-43). -/
def offsetResultFields : List String :=
  ["offset_frames", "offset_seconds", "confidence", "fps_used", "method"]

/-- Keyword arguments of the `OffsetResult(...)` construction at the end of
`find_offset` (finder.py lines 209-216 and 218-225): both constructions pass
the same six keywords, including `offset_timestamp`. -/
def offsetResultCallKwargs : List String :=
  ["offset_frames", "offset_seconds", "offset_timestamp", "confidence",
    "fps_used", "method"]

/-! ## Fine-phase window computation (finder.py lines 127-152) -/

/-- Python `x or y` on an optional float: `None` and `0.0` are falsy. -/
def pyOrQ (x : Option ℚ) (y : ℚ) : ℚ :=
  match x with
  | none => y
  | some v => if v = 0 then y else v

/-- The sampling windows of the fine phase (finder.py lines 130-152):
`fine_start = max(0, current_offset - refine_window)`,
`fine_duration = min(refine_window * 2, max_duration or dist_duration)`;
the reference is re-sampled from `fine_start` with maximum duration
`fine_duration + refine_window`, the distorted video with maximum duration
`fine_duration`. -/
def finePhaseParams (currentOffset refineWindow : ℚ) (maxDuration : Option ℚ)
    (distDuration : ℚ) : ℚ × ℚ × ℚ :=
  let fineStart := max 0 (currentOffset - refineWindow)
  let fineDuration := min (refineWindow * 2) (pyOrQ maxDuration distDuration)
  (fineStart, fineDuration + refineWindow, fineDuration)

/-! ## Signature extraction order of events (hashing.py lines 88-114)

`compute_video_signatures` first creates the (lazy) frame generator, then
performs video-metadata I/O via `get_video_info`, then iterates: each loop
step decodes one frame and computes its signature; an unknown comparison type
reaches the `else` branch of `compute_hash` (hashing.py line 38) and raises
`ValueError` at the first signature computation, after the first frame has
been decoded. -/

/-- The comparison-type argument as Python receives it: one of the five enum
members, or any other (unsupported) value. -/
inductive PyCompareType where
  | phash : PyCompareType
  | dhash : PyCompareType
  | ahash : PyCompareType
  | whash : PyCompareType
  | sad : PyCompareType
  | unknownType : String → PyCompareType
deriving DecidableEq

/-- Whether `compute_hash` (hashing.py lines 23-38) has a branch for the type:
the four perceptual hashes are dispatched; anything else raises `ValueError`.
(`sad` never reaches `compute_hash`: it is diverted at hashing.py line 108.) -/
def computeHashHandles : PyCompareType → Bool
  | PyCompareType.phash => true
  | PyCompareType.dhash => true
  | PyCompareType.ahash => true
  | PyCompareType.whash => true
  | _ => false

/-- Observable events during `compute_video_signatures`. -/
inductive SigEvent where
  | openVideo : SigEvent
  | decodeFrame : ℕ → SigEvent
  | computeSig : ℕ → SigEvent
  | raiseValueError : SigEvent
deriving DecidableEq

/-- The per-frame loop of `compute_video_signatures` (hashing.py lines
106-112) over a video with `total` frames, starting at frame `i`: each
iteration decodes frame `i`, then either computes its signature (SAD path or a
handled hash type) or raises `ValueError` inside `compute_hash`. -/
def sigLoopTrace (t : PyCompareType) : ℕ → ℕ → List SigEvent
  | _, 0 => []
  | i, remaining + 1 =>
    SigEvent.decodeFrame i ::
      (if t = PyCompareType.sad || computeHashHandles t then
        SigEvent.computeSig i :: sigLoopTrace t (i + 1) remaining
      else [SigEvent.raiseValueError])

/-- The event trace of `compute_video_signatures` (hashing.py lines 88-114) on
a video with `numFrames` decodable frames: the generator is created lazily
(no event), `get_video_info` opens the video (metadata I/O), then the frame
loop runs. -/
def computeVideoSignaturesTrace (t : PyCompareType) (numFrames : ℕ) : List SigEvent :=
  SigEvent.openVideo :: sigLoopTrace t 0 numFrames

/-- C1: for every pair of input videos — abstracted by the signature series a
successful extraction would yield — the coarse phase of `find_offset` raises a
`TypeError` before any correlation result is produced: the first
`compute_video_signatures` call passes the keyword argument `quiet`
(finder.py line 95), which is not among `compute_video_signatures`'s
parameters (hashing.py lines 62-71), so the call cannot bind. -/
theorem findOffset_raises_typeerror (refSigs distSigs : List (List ℤ)) :
    ("quiet" ∈ coarseRefCallKwargs ∧ "quiet" ∉ computeVideoSignaturesParams) ∧
    callBindsOk computeVideoSignaturesParams 4 coarseRefCallKwargs = false ∧
    findOffsetCoarse refSigs distSigs =
      Except.error
        "TypeError: compute_video_signatures() got an unexpected keyword argument quiet" := by
  refine ⟨⟨by decide, by decide⟩, by decide, ?_⟩
  unfold findOffsetCoarse
  rw [show callBindsOk computeVideoSignaturesParams 4 coarseRefCallKwargs = false
    from by decide]
  rfl

/-- C2 (code bug): the `OffsetResult` dataclass (models.py lines 34-43) has no
`offset_timestamp` field, while the constructions returned by `find_offset`
(finder.py lines 209-216 and 218-225) pass `offset_timestamp=` as a keyword —
that binding fails, so no result of `find_offset` can be an `OffsetResult`
record carrying an `offset_timestamp` field, contradicting the spec and
tests/test_cli.py. -/
theorem offsetResult_missing_timestamp_field :
    "offset_timestamp" ∈ offsetResultCallKwargs ∧
    "offset_timestamp" ∉ offsetResultFields ∧
    callBindsOk offsetResultFields 0 offsetResultCallKwargs = false := by
  exact ⟨by decide, by decide, by decide⟩

/-- C5 counterexample: with coarse offset 10 s, refine window 2 s, no user
duration cap and a 100 s distorted video, the fine phase re-samples the
reference from 8 s with maximum duration 6 s: the reference window `[8, 14]`
extends 2 s past `coarse_offset + refine_window = 12`, and its duration
exceeds the `2 x refine_window = 4` bound the claim entails. -/
theorem finePhase_window_counterexample :
    finePhaseParams 10 2 none 100 = (8, 6, 4) ∧
    ¬((finePhaseParams 10 2 none 100).2.1 ≤ 2 * 2) ∧
    ¬((finePhaseParams 10 2 none 100).1 + (finePhaseParams 10 2 none 100).2.1
        ≤ 10 + 2) := by
  refine ⟨?_, ?_, ?_⟩ <;> norm_num [finePhaseParams, pyOrQ]

/-- C5 (amended): whenever the fine phase runs, the reference is re-sampled
from `max(0, coarse_offset - refine_window)` with maximum duration
`min(2 x refine_window, max_duration or dist_duration) + refine_window` —
one `refine_window` more than the `2 x refine_window` window of the claim,
hence up to `3 x refine_window` — and the distorted video is re-sampled with
maximum duration `min(2 x refine_window, max_duration or dist_duration)`,
which is `2 x refine_window` unless capped by a smaller
`max_duration or dist_duration`. -/
theorem finePhase_window_amended (currentOffset refineWindow : ℚ)
    (maxDuration : Option ℚ) (distDuration : ℚ) :
    (finePhaseParams currentOffset refineWindow maxDuration distDuration).1 =
      max 0 (currentOffset - refineWindow) ∧
    (finePhaseParams currentOffset refineWindow maxDuration distDuration).2.2 =
      min (2 * refineWindow) (pyOrQ maxDuration distDuration) ∧
    (finePhaseParams currentOffset refineWindow maxDuration distDuration).2.1 =
      (finePhaseParams currentOffset refineWindow maxDuration distDuration).2.2 +
        refineWindow ∧
    (finePhaseParams currentOffset refineWindow maxDuration distDuration).2.1 ≤
      3 * refineWindow := by
  refine ⟨rfl, by rw [finePhaseParams]; ring_nf, rfl, ?_⟩
  show min (refineWindow * 2) (pyOrQ maxDuration distDuration) + refineWindow ≤
    3 * refineWindow
  have h := min_le_left (refineWindow * 2) (pyOrQ maxDuration distDuration)
  linarith

/-- C6 counterexample: requesting signatures with the unsupported algorithm
identifier `"md5"` on a one-frame video first opens the video for metadata
(I/O) and decodes frame 0, and only then raises `ValueError` — a frame is
decoded before the configuration error, refuting the fail-before-I/O claim. -/
theorem unknownAlgorithm_decodes_first_counterexample :
    computeVideoSignaturesTrace (PyCompareType.unknownType "md5") 1 =
      [SigEvent.openVideo, SigEvent.decodeFrame 0, SigEvent.raiseValueError] ∧
    SigEvent.decodeFrame 0 ∈
      (computeVideoSignaturesTrace (PyCompareType.unknownType "md5") 1).takeWhile
        (fun e => e != SigEvent.raiseValueError) := by
  exact ⟨by decide, by decide⟩

/-- C6 (amended): an unsupported algorithm identifier raises `ValueError` only
at the first signature computation — after the video-metadata I/O and after
the first frame has been decoded, not before any video I/O; and when the
sampling window yields no frame at all, no error is raised. -/
theorem unknownAlgorithm_raises_after_decode (name : String) (n : ℕ)
    (hn : 0 < n) :
    computeVideoSignaturesTrace (PyCompareType.unknownType name) n =
      [SigEvent.openVideo, SigEvent.decodeFrame 0, SigEvent.raiseValueError] ∧
    computeVideoSignaturesTrace (PyCompareType.unknownType name) 0 =
      [SigEvent.openVideo] := by
  obtain ⟨k, rfl⟩ : ∃ k, n = k + 1 := ⟨n - 1, by omega⟩
  constructor
  · unfold computeVideoSignaturesTrace
    rw [show sigLoopTrace (PyCompareType.unknownType name) 0 (k + 1) =
      SigEvent.decodeFrame 0 :: [SigEvent.raiseValueError] from ?_]
    · rw [sigLoopTrace]
      simp [computeHashHandles]
  · rfl

theorem unknownAlgorithm_raises_after_decode_witness :
    0 < 1 ∧
    (computeVideoSignaturesTrace (PyCompareType.unknownType "md5") 1 =
      [SigEvent.openVideo, SigEvent.decodeFrame 0, SigEvent.raiseValueError] ∧
    computeVideoSignaturesTrace (PyCompareType.unknownType "md5") 0 =
      [SigEvent.openVideo]) :=
  ⟨by decide, unknownAlgorithm_raises_after_decode "md5" 1 (by decide)⟩

/-! ## Frame sampler (video.py, `extract_frames`)

A decoded video stream is modelled as the list of its frames' PTS values in
decode order (`Option ℤ`: `none` for a frame without PTS, handled by the
fallback at video.py lines 86-87) together with the stream time base.  Only
the emitted timestamps are modelled; the raster images play no role in the
claims.  `container.seek` (video.py line 75) lands on a keyframe at or before
the requested position; the landing point is modelled as an arbitrary index
`seekIdx` into the decode order. -/

/-- Python truthiness of an optional float (`None` and `0.0` are falsy), as
used by `max_duration and ...` (video.py line 100). -/
def pyTruthyQ (o : Option ℚ) : Bool :=
  match o with
  | none => false
  | some v => decide (v ≠ 0)

/-- Python truthiness of an optional int, as used by `max_frames and ...`
(video.py line 104). -/
def pyTruthyN (o : Option ℕ) : Bool :=
  match o with
  | none => false
  | some k => decide (k ≠ 0)

/-- `float(frame.pts * time_base)` with the fallback `abs_timestamp = 0` for a
frame without PTS (video.py lines 83-87). -/
def ptsTimeOf (tb : ℚ) (p : Option ℤ) : ℚ :=
  match p with
  | some v => (v : ℚ) * tb
  | none => 0

/-- The value `first_pts_time` holds after examining one decoded frame: kept
if already set, otherwise the frame's absolute timestamp (video.py lines
90-91). -/
def firstPtsAfter (tb : ℚ) (fp : Option ℚ) (p : Option ℤ) : ℚ :=
  match fp with
  | none => ptsTimeOf tb p
  | some c => c

/-- The main decode loop of `extract_frames` (video.py lines 81-113), emitting
the sequence of yielded relative timestamps.  State: remaining frames,
`first_pts_time`, `frames_in_range`, `next_sample_idx`, `frames_yielded`. -/
def efLoop (tb frameInterval startTime : ℚ) (maxDuration : Option ℚ)
    (maxFrames : Option ℕ) :
    List (Option ℤ) → Option ℚ → ℕ → ℚ → ℕ → List ℚ
  | [], _, _, _, _ => []
  | p :: rest, fp, framesInRange, nextSampleIdx, framesYielded =>
    let c := firstPtsAfter tb fp p
    let relT := ptsTimeOf tb p - c
    if relT < startTime then
      efLoop tb frameInterval startTime maxDuration maxFrames rest (some c)
        framesInRange nextSampleIdx framesYielded
    else if pyTruthyQ maxDuration && decide (relT - startTime > maxDuration.getD 0) then
      []
    else if pyTruthyN maxFrames && decide (framesYielded ≥ maxFrames.getD 0) then
      []
    else if (framesInRange : ℚ) ≥ nextSampleIdx then
      relT :: efLoop tb frameInterval startTime maxDuration maxFrames rest (some c)
        (framesInRange + 1) (nextSampleIdx + frameInterval) (framesYielded + 1)
    else
      efLoop tb frameInterval startTime maxDuration maxFrames rest (some c)
        (framesInRange + 1) nextSampleIdx framesYielded

/-- `extract_frames` (video.py lines 31-114), emitted timestamps only.
`frame_interval = source_fps / target_fps` (line 58).  For
`start_time > 0.5` the sampler first decodes one probe frame to establish
`first_pts_time` (lines 64-70) and then seeks, decoding forward from the
keyframe at index `seekIdx`; otherwise it decodes from the start with
`first_pts_time` initially unset. -/
def extractFramesTimestamps (stream : List (Option ℤ))
    (tb sourceFps targetFps startTime : ℚ) (maxDuration : Option ℚ)
    (maxFrames : Option ℕ) (seekIdx : ℕ) : List ℚ :=
  let frameInterval := sourceFps / targetFps
  let firstPts0 : Option ℚ :=
    if startTime > 1 / 2 then
      match stream.head? with
      | some (some p) => some ((p : ℚ) * tb)
      | _ => none
    else none
  let mainFrames := if startTime > 1 / 2 then stream.drop seekIdx else stream
  efLoop tb frameInterval startTime maxDuration maxFrames mainFrames firstPts0 0 0 0

/-- Modelled from the spec (§4.1 and claim C10): the decimation-free sampler
that emits every decoded frame lying within the active range, subject to the
same `start_time`, `max_duration` and `max_frames` limits — the behaviour the
spec promises for `target_fps > source_fps`. -/
def airLoop (tb startTime : ℚ) (maxDuration : Option ℚ) (maxFrames : Option ℕ) :
    List (Option ℤ) → Option ℚ → ℕ → List ℚ
  | [], _, _ => []
  | p :: rest, fp, framesYielded =>
    let c := firstPtsAfter tb fp p
    let relT := ptsTimeOf tb p - c
    if relT < startTime then
      airLoop tb startTime maxDuration maxFrames rest (some c) framesYielded
    else if pyTruthyQ maxDuration && decide (relT - startTime > maxDuration.getD 0) then
      []
    else if pyTruthyN maxFrames && decide (framesYielded ≥ maxFrames.getD 0) then
      []
    else
      relT :: airLoop tb startTime maxDuration maxFrames rest (some c)
        (framesYielded + 1)

/-- Modelled from the spec (claim C10): `extractFramesTimestamps` with the
sampling decision replaced by unconditional emission. -/
def allInRangeTimestamps (stream : List (Option ℤ)) (tb startTime : ℚ)
    (maxDuration : Option ℚ) (maxFrames : Option ℕ) (seekIdx : ℕ) : List ℚ :=
  let firstPts0 : Option ℚ :=
    if startTime > 1 / 2 then
      match stream.head? with
      | some (some p) => some ((p : ℚ) * tb)
      | _ => none
    else none
  let mainFrames := if startTime > 1 / 2 then stream.drop seekIdx else stream
  airLoop tb startTime maxDuration maxFrames mainFrames firstPts0 0

/-! ### Sampler lemmas -/

lemma efLoop_none_step (tb fi st : ℚ) (md : Option ℚ) (mf : Option ℕ)
    (p : Option ℤ) (rest : List (Option ℤ)) (fir : ℕ) (nsi : ℚ) (fy : ℕ) :
    efLoop tb fi st md mf (p :: rest) none fir nsi fy =
      efLoop tb fi st md mf (p :: rest) (some (ptsTimeOf tb p)) fir nsi fy := by
  simp only [efLoop, firstPtsAfter]

lemma efLoop_sublist (tb fi st : ℚ) (md : Option ℚ) (mf : Option ℕ) :
    ∀ (l : List (Option ℤ)) (c : ℚ) (fir : ℕ) (nsi : ℚ) (fy : ℕ),
      (efLoop tb fi st md mf l (some c) fir nsi fy).Sublist
        (l.map fun p => ptsTimeOf tb p - c) := by
  intro l
  induction l with
  | nil => intro c fir nsi fy; exact List.Sublist.refl _
  | cons p rest ih =>
    intro c fir nsi fy
    simp only [efLoop, firstPtsAfter, List.map_cons]
    by_cases h1 : ptsTimeOf tb p - c < st
    · rw [if_pos h1]
      exact List.Sublist.cons _ (ih c fir nsi fy)
    · rw [if_neg h1]
      by_cases h2 : (pyTruthyQ md && decide (ptsTimeOf tb p - c - st > md.getD 0)) = true
      · rw [if_pos h2]
        exact List.nil_sublist _
      · rw [if_neg h2]
        by_cases h3 : (pyTruthyN mf && decide (fy ≥ mf.getD 0)) = true
        · rw [if_pos h3]
          exact List.nil_sublist _
        · rw [if_neg h3]
          by_cases h4 : (fir : ℚ) ≥ nsi
          · rw [if_pos h4]
            exact List.Sublist.cons₂ _ (ih c (fir + 1) (nsi + fi) (fy + 1))
          · rw [if_neg h4]
            exact List.Sublist.cons _ (ih c (fir + 1) nsi fy)

lemma efLoop_eq_airLoop (tb fi st : ℚ) (md : Option ℚ) (mf : Option ℕ)
    (hfi : fi ≤ 1) :
    ∀ (l : List (Option ℤ)) (fp : Option ℚ) (fir : ℕ) (nsi : ℚ) (fy : ℕ),
      nsi ≤ (fir : ℚ) →
      efLoop tb fi st md mf l fp fir nsi fy = airLoop tb st md mf l fp fy := by
  intro l
  induction l with
  | nil => intro fp fir nsi fy _; rfl
  | cons p rest ih =>
    intro fp fir nsi fy h
    simp only [efLoop, airLoop]
    by_cases h1 : ptsTimeOf tb p - firstPtsAfter tb fp p < st
    · rw [if_pos h1, if_pos h1]
      exact ih _ fir nsi fy h
    · rw [if_neg h1, if_neg h1]
      by_cases h2 : (pyTruthyQ md &&
          decide (ptsTimeOf tb p - firstPtsAfter tb fp p - st > md.getD 0)) = true
      · rw [if_pos h2, if_pos h2]
      · rw [if_neg h2, if_neg h2]
        by_cases h3 : (pyTruthyN mf && decide (fy ≥ mf.getD 0)) = true
        · rw [if_pos h3, if_pos h3]
        · rw [if_neg h3, if_neg h3]
          rw [if_pos (le_trans h (by exact_mod_cast le_refl _))]
          have hnext : nsi + fi ≤ ((fir + 1 : ℕ) : ℚ) := by
            push_cast
            linarith
          rw [ih _ (fir + 1) (nsi + fi) (fy + 1) hnext]

lemma efLoop_mapped_out (tb fi st : ℚ) (md : Option ℚ) (mf : Option ℕ)
    (vs : List ℤ) (c : ℚ) (fir : ℕ) (nsi : ℚ) (fy : ℕ)
    (hp : vs.Pairwise (· < ·)) (htb : 0 < tb) :
    (efLoop tb fi st md mf (vs.map some) (some c) fir nsi fy).Pairwise (· < ·) ∧
    ∀ t ∈ efLoop tb fi st md mf (vs.map some) (some c) fir nsi fy,
      ∃ p ∈ vs, t = (p : ℚ) * tb - c := by
  have hsub := efLoop_sublist tb fi st md mf (vs.map some) c fir nsi fy
  have hmap : (vs.map some).map (fun p => ptsTimeOf tb p - c) =
      vs.map fun v : ℤ => (v : ℚ) * tb - c := by
    rw [List.map_map]
    rfl
  rw [hmap] at hsub
  constructor
  · apply List.Pairwise.sublist hsub
    apply List.Pairwise.map
    · intro a b hab
      have hcast : (a : ℚ) < (b : ℚ) := by exact_mod_cast hab
      have := mul_lt_mul_of_pos_right hcast htb
      linarith
    · exact hp
  · intro t ht
    obtain ⟨p, hpmem, rfl⟩ := List.mem_map.mp (hsub.subset ht)
    exact ⟨p, hpmem, rfl⟩

/-- C9: on any well-formed decoded stream (every frame carries a PTS, PTS
strictly increasing in decode order, positive time base) and for every target
rate and window, the emitted timestamps are strictly increasing across the
pass, and each equals the emitting frame's PTS time minus the PTS time of the
first decoded frame of the pass — so timestamps are normalized with the first
decoded frame at time zero, also when the pass seeks. -/
theorem sampler_timestamps_strictMono_and_normalized (vs : List ℤ) (v0 : ℤ)
    (tb sourceFps targetFps startTime : ℚ) (maxDuration : Option ℚ)
    (maxFrames : Option ℕ) (seekIdx : ℕ) (hhead : vs.head? = some v0)
    (hmono : vs.Chain' (· < ·)) (htb : 0 < tb) :
    (extractFramesTimestamps (vs.map some) tb sourceFps targetFps startTime
        maxDuration maxFrames seekIdx).Pairwise (· < ·) ∧
    ∀ t ∈ extractFramesTimestamps (vs.map some) tb sourceFps targetFps startTime
        maxDuration maxFrames seekIdx,
      ∃ p ∈ vs, t = (p : ℚ) * tb - (v0 : ℚ) * tb := by
  have hp : vs.Pairwise (· < ·) := List.chain'_iff_pairwise.mp hmono
  simp only [extractFramesTimestamps]
  by_cases hseek : startTime > 1 / 2
  · rw [if_pos hseek, if_pos hseek, List.head?_map, hhead, ← List.map_drop]
    have h := efLoop_mapped_out tb (sourceFps / targetFps) startTime maxDuration
      maxFrames (vs.drop seekIdx) ((v0 : ℚ) * tb) 0 0 0
      (List.Pairwise.sublist (List.drop_sublist _ _) hp) htb
    refine ⟨h.1, ?_⟩
    intro t ht
    obtain ⟨p, hpmem, rfl⟩ := h.2 t ht
    exact ⟨p, List.mem_of_mem_drop hpmem, rfl⟩
  · rw [if_neg hseek, if_neg hseek]
    rcases vs with _ | ⟨a, vs'⟩
    · exact absurd hhead (by simp)
    · have ha : a = v0 := by simpa using hhead
      subst ha
      rw [List.map_cons, efLoop_none_step, ← List.map_cons]
      exact efLoop_mapped_out tb (sourceFps / targetFps) startTime maxDuration
        maxFrames (a :: vs') ((a : ℚ) * tb) 0 0 0 hp htb

theorem sampler_timestamps_strictMono_and_normalized_witness :
    ([(0 : ℤ), 10, 20, 30].head? = some (0 : ℤ)) ∧
    ([(0 : ℤ), 10, 20, 30].Chain' (· < ·)) ∧ (0 : ℚ) < 1 / 10 ∧
    ((extractFramesTimestamps ([(0 : ℤ), 10, 20, 30].map some) (1 / 10) 25 1 2
        none none 1).Pairwise (· < ·) ∧
      ∀ t ∈ extractFramesTimestamps ([(0 : ℤ), 10, 20, 30].map some) (1 / 10) 25 1 2
          none none 1,
        ∃ p ∈ [(0 : ℤ), 10, 20, 30], t = (p : ℚ) * (1 / 10) - ((0 : ℤ) : ℚ) * (1 / 10)) :=
  ⟨by decide, by simp [List.chain'_cons], by norm_num,
    sampler_timestamps_strictMono_and_normalized [(0 : ℤ), 10, 20, 30] 0 (1 / 10)
      25 1 2 none none 1 (by decide) (by simp [List.chain'_cons]) (by norm_num)⟩

/-- C10: whenever the target sampling rate strictly exceeds the source rate,
the sampler emits every decoded frame lying within the active range (subject
to the `start_time`, `max_duration` and `max_frames` limits): it coincides
with the spec-modelled decimation-free sampler, skipping no in-range frame. -/
theorem sampler_emits_all_frames_when_upsampling (stream : List (Option ℤ))
    (tb sourceFps targetFps startTime : ℚ) (maxDuration : Option ℚ)
    (maxFrames : Option ℕ) (seekIdx : ℕ) (hpos : 0 < targetFps)
    (hlt : sourceFps < targetFps) :
    extractFramesTimestamps stream tb sourceFps targetFps startTime maxDuration
        maxFrames seekIdx =
      allInRangeTimestamps stream tb startTime maxDuration maxFrames seekIdx := by
  have hfi : sourceFps / targetFps ≤ 1 := le_of_lt ((div_lt_one hpos).mpr hlt)
  simp only [extractFramesTimestamps, allInRangeTimestamps]
  exact efLoop_eq_airLoop tb (sourceFps / targetFps) startTime maxDuration
    maxFrames hfi _ _ 0 0 0 (by norm_num)

theorem sampler_emits_all_frames_when_upsampling_witness :
    (0 : ℚ) < 2 ∧ (1 : ℚ) < 2 ∧
    extractFramesTimestamps [some (0 : ℤ), some 10, some 20, some 30] (1 / 10) 1 2 0
        none none 0 =
      allInRangeTimestamps [some (0 : ℤ), some 10, some 20, some 30] (1 / 10) 0
        none none 0 :=
  ⟨by norm_num, by norm_num,
    sampler_emits_all_frames_when_upsampling [some (0 : ℤ), some 10, some 20, some 30]
      (1 / 10) 1 2 0 none none 0 (by norm_num) (by norm_num)⟩

end VideoOffsetFinder
